import Mathlib

/-!
Verification development for the `layer-tool` repository (Rust).

The development shallowly embeds the checksum engine, the archive codec,
and the command pipelines of the tool:

* `src/utils.rs` — `create_tar_archive`, `extract_tar_archive`,
  `calculate_directory_checksum`, `calculate_file_checksum`,
  `is_gzip_file`, `validate_file_path`;
* `src/commands/check.rs` — `validate_layer_archive`,
  `perform_compatibility_checks`;
* `src/commands/import.rs` — the backup / clear / extract / verify
  fragment of `ImportCommand::execute`;
* `src/commands/export.rs` — the output-path computation of
  `ExportCommand::execute`.

Machine integers are modelled as `Nat` with explicit `% 2^32` where the
SHA-256 arithmetic overflows; file bytes are `Nat` values below 256;
fallible operations return `Except String`.  A directory tree is the
list of entries a `WalkDir` traversal yields, each entry carrying its
path relative to the walked root (the root itself appears with the empty
relative path).  Filesystem I/O errors are outside the model: the model
covers the data transformations the source performs on successfully
read data.
-/

/-! ## SHA-256 (the `sha2` crate's `Sha256`, bytes to lowercase hex)

The Rust code feeds bytes into a `Sha256` hasher incrementally and
renders the digest with `format!("{:x}")`.  Incremental `update` calls
hash the concatenation of the fed chunks, so the model hashes one byte
list.  The implementation below is FIPS 180-4 SHA-256 over byte lists,
with 32-bit words as `Nat` reduced mod `2^32`. -/

def M32 : Nat := 4294967296

def rotr32 (n x : Nat) : Nat := ((x >>> n) ||| (x <<< (32 - n))) % M32

def shaCh (e f g : Nat) : Nat := (e &&& f) ^^^ ((M32 - 1 - e) &&& g)

def shaMaj (a b c : Nat) : Nat := (a &&& b) ^^^ (a &&& c) ^^^ (b &&& c)

def bsig0 (x : Nat) : Nat := rotr32 2 x ^^^ rotr32 13 x ^^^ rotr32 22 x

def bsig1 (x : Nat) : Nat := rotr32 6 x ^^^ rotr32 11 x ^^^ rotr32 25 x

def ssig0 (x : Nat) : Nat := rotr32 7 x ^^^ rotr32 18 x ^^^ (x >>> 3)

def ssig1 (x : Nat) : Nat := rotr32 17 x ^^^ rotr32 19 x ^^^ (x >>> 10)

def shaK : List Nat :=
  [1116352408, 1899447441, 3049323471, 3921009573, 961987163, 1508970993,
   2453635748, 2870763221, 3624381080, 310598401, 607225278, 1426881987,
   1925078388, 2162078206, 2614888103, 3248222580, 3835390401, 4022224774,
   264347078, 604807628, 770255983, 1249150122, 1555081692, 1996064986,
   2554220882, 2821834349, 2952996808, 3210313671, 3336571891, 3584528711,
   113926993, 338241895, 666307205, 773529912, 1294757372, 1396182291,
   1695183700, 1986661051, 2177026350, 2456956037, 2730485921, 2820302411,
   3259730800, 3345764771, 3516065817, 3600352804, 4094571909, 275423344,
   430227734, 506948616, 659060556, 883997877, 958139571, 1322822218,
   1537002063, 1747873779, 1955562222, 2024104815, 2227730452, 2361852424,
   2428436474, 2756734187, 3204031479, 3329325298]

def shaH0 : List Nat :=
  [1779033703, 3144134277, 1013904242, 2773480762, 1359893119, 2600822924,
   528734635, 1541459225]

def be64 (n : Nat) : List Nat :=
  [(n >>> 56) % 256, (n >>> 48) % 256, (n >>> 40) % 256, (n >>> 32) % 256,
   (n >>> 24) % 256, (n >>> 16) % 256, (n >>> 8) % 256, n % 256]

def sha256pad (msg : List Nat) : List Nat :=
  msg ++ 0x80 :: List.replicate ((119 - msg.length % 64) % 64) 0 ++ be64 (8 * msg.length)

def bytesToWords : List Nat → List Nat
  | a :: b :: c :: d :: rest => (((a * 256 + b) * 256 + c) * 256 + d) :: bytesToWords rest
  | _ => []

/-- Fuel-indexed splitting of a list into chunks of `n` elements; the
fuel keeps the recursion structural so the kernel can evaluate it. -/
def chunksOfAux (n : Nat) : Nat → List α → List (List α)
  | 0, _ => []
  | _, [] => []
  | fuel + 1, x :: xs => (x :: xs).take n :: chunksOfAux n fuel ((x :: xs).drop n)

/-- Split a list into consecutive chunks of `n` elements (the last chunk
may be shorter).  Models both the 8192-byte read loops feeding the
hasher and the 16-word block splitting inside SHA-256. -/
def chunksOf (n : Nat) (l : List α) : List (List α) := chunksOfAux n l.length l

def schedStep (w : List Nat) : List Nat :=
  w ++ [(ssig1 (w.getD (w.length - 2) 0) + w.getD (w.length - 7) 0 +
         ssig0 (w.getD (w.length - 15) 0) + w.getD (w.length - 16) 0) % M32]

def schedule (block : List Nat) : List Nat :=
  (List.range 48).foldl (fun w _ => schedStep w) block

def compressRound (w : List Nat) (st : List Nat) (t : Nat) : List Nat :=
  let a := st.getD 0 0
  let b := st.getD 1 0
  let c := st.getD 2 0
  let d := st.getD 3 0
  let e := st.getD 4 0
  let f := st.getD 5 0
  let g := st.getD 6 0
  let h := st.getD 7 0
  let t1 := (h + bsig1 e + shaCh e f g + shaK.getD t 0 + w.getD t 0) % M32
  let t2 := (bsig0 a + shaMaj a b c) % M32
  [(t1 + t2) % M32, a, b, c, (d + t1) % M32, e, f, g]

def processBlock (h : List Nat) (block : List Nat) : List Nat :=
  let w := schedule block
  let st := (List.range 64).foldl (compressRound w) h
  List.zipWith (fun x y => (x + y) % M32) h st

def hexDigit (n : Nat) : Char := if n < 10 then Char.ofNat (48 + n) else Char.ofNat (87 + n)

def word32Hex (w : Nat) : List Char :=
  (List.range 8).map (fun i => hexDigit ((w >>> (28 - 4 * i)) % 16))

/-- SHA-256 digest of a byte list, rendered as 64 lowercase hex
characters — the value `format!("{:x}", hasher.finalize())` produces in
`utils.rs`. -/
def sha256Hex (msg : List Nat) : String :=
  let hs := (chunksOf 16 (bytesToWords (sha256pad msg))).foldl processBlock shaH0
  String.mk (hs.flatMap word32Hex)

/-! ## Paths, directory entries and the filesystem model

`WalkDir` entries are files or directories; the Rust code looks only at
`entry.path()` and, for files, the byte content.  Relative paths are
modelled as their component lists (each component a `String`); the
string the code absorbs for a path is its components joined by the
platform separator, which is what `relative_path.to_string_lossy()`
yields.  Comparing UTF-8 byte sequences lexicographically agrees with
comparing the character sequences, so `String` order models the
`OsStr` byte order used by `Path::cmp`. -/

inductive FNode : Type where
  | file (content : List Nat) : FNode
  | dir : FNode
deriving DecidableEq, Repr

structure FSEntry : Type where
  path : List String
  node : FNode
deriving DecidableEq, Repr

/-- UTF-8 encoding of one character. -/
def utf8Bytes (c : Char) : List Nat :=
  let n := c.toNat
  if n < 0x80 then [n]
  else if n < 0x800 then [0xc0 + n / 64, 0x80 + n % 64]
  else if n < 0x10000 then [0xe0 + n / 4096, 0x80 + n / 64 % 64, 0x80 + n % 64]
  else [0xf0 + n / 262144, 0x80 + n / 4096 % 64, 0x80 + n / 64 % 64, 0x80 + n % 64]

/-- UTF-8 bytes of a string — `str::as_bytes` in the Rust code. -/
def strBytes (s : String) : List Nat := s.data.flatMap utf8Bytes

/-- The string form of a relative path: components joined by `/`
(`Path::to_string_lossy` on Unix). -/
def pathString : List String → String
  | [] => ""
  | [c] => c
  | c :: rest => c ++ "/" ++ pathString rest

/-- Lexicographic order on component lists: `Path::cmp` compares the
component sequences, a strict prefix ordering before its extensions.
`true` means less-or-equal. -/
def pathLe : List String → List String → Bool
  | [], _ => true
  | _ :: _, [] => false
  | a :: as, b :: bs => if a < b then true else if a = b then pathLe as bs else false

/-- `entries.sort_by(|a, b| a.path().cmp(b.path()))` in `utils.rs`:
sorting the traversal by path, modelled by a stable comparison sort
under the same comparator (Rust's `sort_by` is a stable comparison
sort; with duplicate-free keys every comparison sort agrees).  The
walked entries all share the same root prefix, so comparing full paths
and comparing relative paths give the same order. -/
def sortEntries (l : List FSEntry) : List FSEntry :=
  List.insertionSort (fun a b => pathLe a.path b.path = true) l

/-- Bytes one sorted entry feeds into the hasher in
`calculate_directory_checksum` (utils.rs:178-205): a file absorbs its
relative path string then its content in 8192-byte chunks; a directory
other than the walked root absorbs only its relative path string. -/
def dirEntryAbsorbed (e : FSEntry) : List Nat :=
  match e.node with
  | .file c => strBytes (pathString e.path) ++ (chunksOf 8192 c).flatten
  | .dir => if e.path = [] then [] else strBytes (pathString e.path)

/-- All bytes `calculate_directory_checksum` (utils.rs:168-208) feeds
into its `Sha256` hasher: the walked entries sorted by path, each
absorbed per `dirEntryAbsorbed`. -/
def directoryAbsorbed (entries : List FSEntry) : List Nat :=
  ((sortEntries entries).map dirEntryAbsorbed).flatten

/-- `calculate_directory_checksum` (utils.rs:168-208) on the entry list
a `WalkDir` traversal of the directory yields. -/
def calculate_directory_checksum (entries : List FSEntry) : String :=
  sha256Hex (directoryAbsorbed entries)

/-- `calculate_file_checksum` (utils.rs:148-165): SHA-256 of the file's
bytes, read in 8192-byte chunks. -/
def calculate_file_checksum (content : List Nat) : String :=
  sha256Hex ((chunksOf 8192 content).flatten)

/-! ## The tar codec: packing (`create_tar_archive`) -/

/-- One component of a path stored in a tar entry, as `std::path`
classifies it when the entry is unpacked. -/
inductive TarPathComp : Type where
  | normal (s : String) : TarPathComp
  | parent : TarPathComp
  | rootd : TarPathComp
  | cur : TarPathComp
deriving DecidableEq, Repr

structure TarEntry : Type where
  path : List TarPathComp
  node : FNode
deriving DecidableEq, Repr

def toTarEntry (e : FSEntry) : TarEntry :=
  ⟨e.path.map TarPathComp.normal, e.node⟩

/-- The tar entries `create_tar_archive` (utils.rs:89-126) emits: the
walked entries in sorted path order; a file is appended with its
relative path and content, a directory other than the walked root with
its relative path; nothing else is appended. -/
def archiveEntries (entries : List FSEntry) : List TarEntry :=
  (sortEntries entries).filterMap (fun e =>
    match e.node with
    | .file _ => some (toTarEntry e)
    | .dir => if e.path = [] then none else some (toTarEntry e))

/-- Bytes one sorted entry feeds into the hasher in
`create_tar_archive` (utils.rs:100-124), duplicated from the
`calculate_directory_checksum` logic: file path then chunked content,
or the path of a non-root directory. -/
def tarEntryAbsorbed (e : FSEntry) : List Nat :=
  match e.node with
  | .file c => strBytes (pathString e.path) ++ (chunksOf 8192 c).flatten
  | .dir => if e.path = [] then [] else strBytes (pathString e.path)

/-- All bytes `create_tar_archive` (utils.rs:67-133) feeds into its
`Sha256` hasher while writing the archive. -/
def archiveAbsorbed (entries : List FSEntry) : List Nat :=
  ((sortEntries entries).map tarEntryAbsorbed).flatten

/-- `create_tar_archive` (utils.rs:67-133): packs the walked directory
into a tar stream and returns the checksum it accumulated alongside. -/
def create_tar_archive (entries : List FSEntry) : List TarEntry × String :=
  (archiveEntries entries, sha256Hex (archiveAbsorbed entries))

/-! ## The tar codec: extraction (`extract_tar_archive`)

`extract_tar_archive` (utils.rs:136-145) calls `tar::Archive::unpack`.
For each entry, `unpack` rebuilds the destination path from the entry's
components: prefix, root and current-directory components are dropped,
and an entry containing a parent-directory component is skipped whole
(`unpack_in` returns `Ok(false)` for it — the CVE-2001-1267 family
behaviour of the `tar` crate); remaining normal components are joined
under the destination.  A directory entry is created with its missing
ancestors; a file entry's parent directories are created and the file
is written.  The destination filesystem is modelled as the list of
entries created under the destination root, path-keyed. -/

/-- Path sanitisation performed by `tar::Entry::unpack_in`: `none` means
the whole entry is skipped (a `..` component); otherwise the normal
components that are joined under the destination. -/
def sanitizePath : List TarPathComp → Option (List String)
  | [] => some []
  | .normal s :: rest => (sanitizePath rest).map (s :: ·)
  | .parent :: _ => none
  | .rootd :: rest => sanitizePath rest
  | .cur :: rest => sanitizePath rest

/-- The extracted filesystem: entries created under the destination,
keyed by relative path (the destination root itself is not listed). -/
abbrev FS : Type := List FSEntry

def fsHasPath (fs : FS) (p : List String) : Bool :=
  fs.any (fun e => decide (e.path = p))

/-- The nonempty ancestors-and-self chain of a path, shortest first:
`[p.take 1, p.take 2, …, p]`. -/
def pathChain (p : List String) : List (List String) :=
  (List.range p.length).map (fun i => p.take (i + 1))

/-- One step of `fs::create_dir_all`: create the directory at `q` when
nothing exists there yet. -/
def mkdirStep (acc : FS) (q : List String) : FS :=
  if fsHasPath acc q then acc else acc ++ [⟨q, FNode.dir⟩]

/-- `fs::create_dir_all` under the destination: create every missing
directory on the chain of `p`, in order. -/
def mkdirAll (fs : FS) (p : List String) : FS :=
  (pathChain p).foldl mkdirStep fs

/-- Writing a file at `p`: overwrites an existing entry at that path,
otherwise creates it.  (The I/O error when a directory already occupies
the path is outside the model.) -/
def fsWriteFile (fs : FS) (p : List String) (c : List Nat) : FS :=
  if fsHasPath fs p then
    fs.map (fun e => if e.path = p then ⟨p, FNode.file c⟩ else e)
  else fs ++ [⟨p, FNode.file c⟩]

/-- Unpacking one tar entry into the destination, per
`tar::Archive::unpack`: skipped silently when sanitisation rejects the
path or leaves it empty; a directory is created with its ancestors; a
file's parents are created and the file is written. -/
def unpackEntry (fs : FS) (e : TarEntry) : FS :=
  match sanitizePath e.path with
  | none => fs
  | some [] => fs
  | some p =>
    match e.node with
    | .dir => mkdirAll fs p
    | .file c => fsWriteFile (mkdirAll fs p.dropLast) p c

/-- `extract_tar_archive` (utils.rs:136-145): unpack every entry of the
layer stream into the destination, in archive order.  Path escapes do
not produce an error; the `Except` layer carries only I/O failures,
which are outside the model, so extraction of a parsed archive always
succeeds. -/
def extract_tar_archive (entries : List TarEntry) (dest : FS) : Except String FS :=
  .ok (entries.foldl unpackEntry dest)

/-- `validate_file_path` (utils.rs:223-240): rejects paths containing a
parent-directory or root component.  Defined in the source but never
called by any extraction (or other) code path. -/
def validate_file_path (p : List TarPathComp) : Except String Unit :=
  if p.any (fun c => c = TarPathComp.parent) then
    .error "Path contains parent directory reference"
  else if p.any (fun c => c = TarPathComp.rootd) then
    .error "Absolute paths are not allowed"
  else .ok ()

/-! ## `is_gzip_file` (utils.rs:211-220)

Opens the file and `read_exact`s two bytes: on success the result is
the comparison with the gzip magic; any read failure — in particular a
file shorter than two bytes — yields `Ok(false)`. -/

def is_gzip_file (content : List Nat) : Except String Bool :=
  match content with
  | a :: b :: _ => .ok (decide (a = 0x1f ∧ b = 0x8b))
  | _ => .ok false

/-! ## Check command (`src/commands/check.rs`) -/

/-- `validate_layer_archive` (check.rs:150-178).  The parsed layer
entries are counted; `calculate_file_checksum` recomputes the checksum
of the packed `layer.tar` byte stream; both the calculated and the
recorded (manifest) checksum are printed.  The function returns the
printed triple; it errors only on I/O or a corrupt tar, which are
outside the model — no comparison between the two checksums occurs. -/
def validate_layer_archive (layerEntries : List TarEntry) (layerTarBytes : List Nat)
    (recorded : String) : Except String (String × String × Nat) :=
  .ok (calculate_file_checksum layerTarBytes, recorded, layerEntries.length)

/-- The environment-fingerprint fields of `DockerInfo` (types.rs) that
`perform_compatibility_checks` reads. -/
structure EnvInfo : Type where
  driver : String
  operating_system : String
  architecture : String
deriving DecidableEq, Repr

structure CheckOptions : Type where
  skip_image : Bool
  skip_storage : Bool
  skip_os : Bool
  skip_arch : Bool
deriving DecidableEq, Repr

/-- Report of `perform_compatibility_checks` (check.rs:181-259):
collected warnings, collected errors, and the returned `Result` (error
exactly when the error list is nonempty).  `exportInfo` is the manifest
fingerprint, `current` the host's; the code path where querying the
current daemon info fails (which skips all checks) is not taken. -/
def perform_compatibility_checks (exportInfo current : EnvInfo) (o : CheckOptions) :
    List String × List String × Except String Unit :=
  let warnings :=
    (if ¬o.skip_storage ∧ exportInfo.driver ≠ current.driver then
      ["Storage driver mismatch"] else []) ++
    (if ¬o.skip_os ∧ exportInfo.operating_system ≠ current.operating_system then
      ["Operating system mismatch"] else [])
  let errors :=
    if ¬o.skip_arch ∧ exportInfo.architecture ≠ current.architecture then
      ["Architecture mismatch"] else []
  (warnings, errors,
    if errors.isEmpty then .ok () else .error "Compatibility check failed")

/-- `fn main` (main.rs:55-94) returns `anyhow::Result`: process exit
status 0 on `Ok`, 1 on `Err`; the `?` operators in `main` and the
`.context(...)` wrappers in `CheckCommand::execute` propagate every
error. -/
def exitCode (r : Except String Unit) : Nat :=
  match r with
  | .ok _ => 0
  | .error _ => 1

/-! ## Import command (`src/commands/import.rs`) -/

/-- Outcome of the replacement / extraction / verification fragment of
`ImportCommand::execute`: the final target-directory tree, the final
backup sibling (`None` when absent), and the returned `Result`.  The
filesystem state is reported even when the result is an error, because
the code mutates the target before the checksum verification runs. -/
structure ImportOutcome : Type where
  target : FS
  backupDir : Option FS
  result : Except String Unit
deriving Repr

/-- The backup-or-clear step (import.rs:91-113): with backup requested
and an existing, non-empty target, any prior backup at the sibling path
is dropped and the target is renamed onto it; with backup requested and
an existing empty target, nothing happens; without backup an existing
target is removed outright.  First component: the target directory
state afterwards (`none` = absent, recreated empty by `create_dir_all`);
second: the backup sibling state. -/
def importCleared (backup : Bool) (target : Option FS) (backupDir : Option FS) :
    Option FS × Option FS :=
  if backup then
    match target with
    | some t => if t.isEmpty then (some t, backupDir) else (none, some t)
    | none => (none, backupDir)
  else
    match target with
    | some _ => (none, backupDir)
    | none => (none, backupDir)

/-- The `ImportCommand::execute` fragment at import.rs:91-135, after
the layer stream has been located: back up or clear the existing
target (`target_upper_path.with_extension("backup")` is the sibling
backup path), `create_dir_all` the target, extract the layer into it,
then recompute `calculate_directory_checksum` over the target and
compare with the manifest's recorded checksum.  `target = none` models
a non-existing target directory; the extracted directory's traversal
is the destination root plus the created entries. -/
def import_backup_extract_verify (backup : Bool) (target : Option FS)
    (backupDir : Option FS) (layer : List TarEntry) (recorded : String) : ImportOutcome :=
  let cleared := importCleared backup target backupDir
  let created : FS := (cleared.1).getD []
  let extracted : FS := layer.foldl unpackEntry created
  let calculated := calculate_directory_checksum (⟨[], FNode.dir⟩ :: extracted)
  { target := extracted
    backupDir := cleared.2
    result :=
      if calculated = recorded then .ok ()
      else .error "Layer checksum verification failed" }

/-! ## Export command output path (`src/commands/export.rs`) -/

/-- Split a path string at its last `/`: directory prefix (with its
trailing separator kept) and final component.  `Path::file_stem` and
`Path::with_extension` act only on the final component, leaving
directory components untouched. -/
def splitLastSlash (path : String) : String × String :=
  let rev := path.data.reverse
  let nameRev := rev.takeWhile (fun c => c ≠ '/')
  (String.mk (rev.drop nameRev.length).reverse, String.mk nameRev.reverse)

/-- Rust `Path::file_stem` on a final path component (a file name, no
separators): the part before its last dot, except that a leading dot
with no later dot does not start an extension. -/
def rustFileStem (name : String) : String :=
  let rev := name.data.reverse
  let extRev := rev.takeWhile (fun c => c ≠ '.')
  let rest := rev.drop extRev.length
  match rest with
  | [] => name
  | _ :: stemRev => if stemRev.isEmpty then name else String.mk stemRev.reverse

/-- Rust `Path::with_extension` with a nonempty new extension: keep the
directory prefix, and replace the extension (if any) of the final
component's stem with `ext`.  The model covers paths whose final
component is a plain file name (the CLI output path); `Path`
normalisation edge cases (trailing slash, a final `..` component) are
outside the model. -/
def rustWithExtension (path ext : String) : String :=
  (splitLastSlash path).1 ++ rustFileStem (splitLastSlash path).2 ++ "." ++ ext

/-- Rust `str::ends_with` for a string pattern: a byte-suffix test,
which for an ASCII pattern such as `".gz"` coincides with the
character-suffix test. -/
def strEndsWith (s pat : String) : Bool := pat.data.isSuffixOf s.data

/-- The output-path computation of `ExportCommand::execute`
(export.rs:92-114): when compressing, a path already ending in `.gz`
is used as given, any other path gets `with_extension("tar.gz")`;
without compression the path is used as given (the archive is copied
onto it). -/
def exportOutputName (outputPath : String) (compress : Bool) : String :=
  if compress then
    if strEndsWith outputPath ".gz" then outputPath
    else rustWithExtension outputPath "tar.gz"
  else outputPath

/-! ## Helper lemmas: chunking, path order, sorting -/

theorem chunksOfAux_flatten (n : Nat) (hn : n ≠ 0) :
    ∀ (fuel : Nat) (l : List α), l.length ≤ fuel → (chunksOfAux n fuel l).flatten = l := by
  intro fuel
  induction fuel with
  | zero =>
    intro l hl
    have : l = [] := List.eq_nil_of_length_eq_zero (Nat.le_zero.mp hl)
    subst this
    rfl
  | succ fuel ih =>
    intro l hl
    match l with
    | [] => rfl
    | x :: xs =>
      have hd : ((x :: xs).drop n).length ≤ fuel := by
        simp only [List.length_drop, List.length_cons] at *
        omega
      simp only [chunksOfAux, List.flatten_cons, ih _ hd, List.take_append_drop]

/-- Chunked reading reassembles to the original bytes: feeding a file
to the hasher in 8192-byte chunks absorbs exactly the file's bytes. -/
theorem chunksOf_flatten (n : Nat) (hn : n ≠ 0) (l : List α) :
    (chunksOf n l).flatten = l :=
  chunksOfAux_flatten n hn l.length l le_rfl

theorem pathLe_refl (p : List String) : pathLe p p = true := by
  induction p with
  | nil => rfl
  | cons a as ih => simp [pathLe, lt_irrefl, ih]

theorem pathLe_total (p q : List String) : pathLe p q = true ∨ pathLe q p = true := by
  induction p generalizing q with
  | nil => exact Or.inl rfl
  | cons a as ih =>
    match q with
    | [] => exact Or.inr rfl
    | b :: bs =>
      rcases lt_trichotomy a b with h | h | h
      · exact Or.inl (by simp [pathLe, h])
      · subst h
        rcases ih bs with h' | h'
        · exact Or.inl (by simp [pathLe, lt_irrefl, h'])
        · exact Or.inr (by simp [pathLe, lt_irrefl, h'])
      · exact Or.inr (by simp [pathLe, h])

theorem pathLe_trans {p q r : List String} (h1 : pathLe p q = true)
    (h2 : pathLe q r = true) : pathLe p r = true := by
  induction p generalizing q r with
  | nil => rfl
  | cons a as ih =>
    match q, r with
    | [], _ => simp [pathLe] at h1
    | _ :: _, [] => simp [pathLe] at h2
    | b :: bs, c :: cs =>
      simp only [pathLe] at h1 h2 ⊢
      rcases lt_trichotomy a b with hab | hab | hab
      · rcases lt_trichotomy b c with hbc | hbc | hbc
        · simp [lt_trans hab hbc]
        · subst hbc; simp [hab]
        · simp [lt_asymm hbc, ne_of_gt hbc] at h2
      · subst hab
        rcases lt_trichotomy a c with hac | hac | hac
        · simp [hac]
        · subst hac
          simp only [lt_irrefl, if_false, if_pos rfl] at h1 h2 ⊢
          exact ih h1 h2
        · simp [lt_asymm hac, ne_of_gt hac] at h2
      · simp [lt_asymm hab, ne_of_gt hab] at h1

theorem pathLe_antisymm {p q : List String} (h1 : pathLe p q = true)
    (h2 : pathLe q p = true) : p = q := by
  induction p generalizing q with
  | nil =>
    match q with
    | [] => rfl
    | b :: bs => simp [pathLe] at h2
  | cons a as ih =>
    match q with
    | [] => simp [pathLe] at h1
    | b :: bs =>
      simp only [pathLe] at h1 h2
      rcases lt_trichotomy a b with hab | hab | hab
      · simp [lt_asymm hab, (ne_of_lt hab).symm] at h2
      · subst hab
        simp only [lt_irrefl, if_false, if_pos rfl] at h1 h2
        rw [ih h1 h2]
      · simp [lt_asymm hab, ne_of_gt hab] at h1

/-- A take-prefix of a path sorts no later than the path. -/
theorem pathLe_take (p : List String) (j : Nat) : pathLe (p.take j) p = true := by
  induction p generalizing j with
  | nil => simp [pathLe]
  | cons a as ih =>
    match j with
    | 0 => rfl
    | j + 1 => simp [pathLe, lt_irrefl, ih j]

instance : IsTotal FSEntry (fun a b => pathLe a.path b.path = true) :=
  ⟨fun a b => pathLe_total a.path b.path⟩

instance : IsTrans FSEntry (fun a b => pathLe a.path b.path = true) :=
  ⟨fun _ _ _ => pathLe_trans⟩

theorem sortEntries_perm (l : List FSEntry) : (sortEntries l).Perm l :=
  List.perm_insertionSort _ l

theorem sortEntries_sorted (l : List FSEntry) :
    (sortEntries l).Pairwise (fun a b => pathLe a.path b.path = true) := by
  unfold sortEntries
  exact @List.sorted_insertionSort FSEntry
    (fun a b => pathLe a.path b.path = true) _ _ _ l

/-- Two path-sorted entry lists that are permutations of each other and
have no duplicate paths are equal. -/
theorem eq_of_perm_of_sorted_paths :
    ∀ {l₁ l₂ : List FSEntry}, l₁.Perm l₂ →
    l₁.Pairwise (fun a b => pathLe a.path b.path = true) →
    l₂.Pairwise (fun a b => pathLe a.path b.path = true) →
    (l₁.map FSEntry.path).Nodup → l₁ = l₂ := by
  intro l₁
  induction l₁ with
  | nil =>
    intro l₂ hp _ _ _
    exact (hp.nil_eq).symm ▸ rfl
  | cons a t₁ ih =>
    intro l₂ hp hs₁ hs₂ hnd
    match l₂ with
    | [] => exact absurd hp.symm.nil_eq (by simp)
    | b :: t₂ =>
      have hab : a = b := by
        have ha2 : a ∈ b :: t₂ := hp.subset (List.mem_cons_self a t₁)
        have hb1 : b ∈ a :: t₁ := hp.symm.subset (List.mem_cons_self b t₂)
        have hle1 : pathLe a.path b.path = true := by
          rcases List.mem_cons.mp hb1 with h | h
          · subst h; exact pathLe_refl _
          · exact List.rel_of_pairwise_cons hs₁ h
        have hle2 : pathLe b.path a.path = true := by
          rcases List.mem_cons.mp ha2 with h | h
          · subst h; exact pathLe_refl _
          · exact List.rel_of_pairwise_cons hs₂ h
        exact List.inj_on_of_nodup_map hnd (List.mem_cons_self a t₁) hb1
          (pathLe_antisymm hle1 hle2)
      subst hab
      have ht : t₁.Perm t₂ := hp.cons_inv
      rw [ih ht (List.Pairwise.of_cons hs₁) (List.Pairwise.of_cons hs₂)
        (by simpa using (List.nodup_cons.mp (by simpa using hnd)).2)]

/-! ## Helper lemmas: the two absorbed streams coincide; stream facts -/

/-- The hashing loop duplicated between `create_tar_archive` and
`calculate_directory_checksum` absorbs the same bytes per entry. -/
theorem tarEntryAbsorbed_eq_dirEntryAbsorbed (e : FSEntry) :
    tarEntryAbsorbed e = dirEntryAbsorbed e := rfl

theorem archiveAbsorbed_eq_directoryAbsorbed (l : List FSEntry) :
    archiveAbsorbed l = directoryAbsorbed l := rfl

theorem fsHasPath_iff (fs : FS) (p : List String) :
    fsHasPath fs p = true ↔ p ∈ fs.map FSEntry.path := by
  simp [fsHasPath, List.any_eq_true, List.mem_map]

theorem mem_pathChain {p : List String} {x : List String} :
    x ∈ pathChain p ↔ ∃ i, i < p.length ∧ x = p.take (i + 1) := by
  simp [pathChain, List.mem_map, List.mem_range, eq_comm]

theorem pathChain_dropLast_take {p x : List String}
    (hx : x ∈ pathChain p.dropLast) : ∃ i, i + 1 ≤ p.length - 1 ∧ x = p.take (i + 1) := by
  rcases mem_pathChain.mp hx with ⟨i, hi, hx'⟩
  refine ⟨i, ?_, ?_⟩
  · have := List.length_dropLast p
    omega
  · rw [hx', List.dropLast_eq_take, List.take_take]
    congr 1
    have := List.length_dropLast p
    simp only [List.length_dropLast] at hi
    omega

theorem mem_pathChain_dropLast_ne {p x : List String}
    (hx : x ∈ pathChain p.dropLast) : x ≠ p ∧ pathLe x p = true := by
  rcases pathChain_dropLast_take hx with ⟨i, hi, hx'⟩
  constructor
  · intro h
    rw [hx'] at h
    have := congrArg List.length h
    simp only [List.length_take] at this
    omega
  · rw [hx']; exact pathLe_take p (i + 1)

theorem foldl_mkdirStep_present :
    ∀ (qs : List (List String)) (fs : FS), (∀ q ∈ qs, fsHasPath fs q = true) →
    qs.foldl mkdirStep fs = fs := by
  intro qs
  induction qs with
  | nil => intro fs _; rfl
  | cons q rest ih =>
    intro fs h
    have hq := h q (List.mem_cons_self q rest)
    simp only [List.foldl_cons, mkdirStep, hq, if_true]
    exact ih fs (fun r hr => h r (List.mem_cons_of_mem q hr))

theorem mkdirAll_present (fs : FS) (p : List String)
    (h : ∀ q ∈ pathChain p, fsHasPath fs q = true) : mkdirAll fs p = fs :=
  foldl_mkdirStep_present (pathChain p) fs h

theorem pathChain_eq_dropLast_append (p : List String) (hp : p ≠ []) :
    pathChain p = pathChain p.dropLast ++ [p] := by
  have hlen : p.length = p.dropLast.length + 1 := by
    have := List.length_dropLast p
    have : 0 < p.length := List.length_pos.mpr hp
    simp [List.length_dropLast]
    omega
  unfold pathChain
  rw [hlen, List.range_succ, List.map_append]
  congr 1
  · apply List.map_congr_left
    intro i hi
    rw [List.mem_range] at hi
    rw [List.dropLast_eq_take, List.take_take]
    congr 1
    have := List.length_dropLast p
    omega
  · simp only [List.map_cons, List.map_nil]
    congr 1
    have : p.dropLast.length + 1 = p.length := hlen.symm
    rw [this]
    exact List.take_length p

theorem mkdirAll_absent (fs : FS) (p : List String) (hp : p ≠ [])
    (hpres : ∀ q ∈ pathChain p.dropLast, fsHasPath fs q = true)
    (habs : fsHasPath fs p = false) :
    mkdirAll fs p = fs ++ [⟨p, FNode.dir⟩] := by
  unfold mkdirAll
  rw [pathChain_eq_dropLast_append p hp, List.foldl_append,
    foldl_mkdirStep_present _ fs hpres]
  simp [mkdirStep, habs]

theorem fsWriteFile_absent (fs : FS) (p : List String) (c : List Nat)
    (habs : fsHasPath fs p = false) :
    fsWriteFile fs p c = fs ++ [⟨p, FNode.file c⟩] := by
  simp [fsWriteFile, habs]

theorem sanitizePath_map_normal (p : List String) :
    sanitizePath (p.map TarPathComp.normal) = some p := by
  induction p with
  | nil => rfl
  | cons a as ih => simp [sanitizePath, ih]

theorem unpackEntry_toTar_dir (fs : FS) (p : List String) (hp : p ≠ []) :
    unpackEntry fs (toTarEntry ⟨p, FNode.dir⟩) = mkdirAll fs p := by
  cases p with
  | nil => exact absurd rfl hp
  | cons a as =>
    have h : sanitizePath (TarPathComp.normal a :: as.map TarPathComp.normal) =
        some (a :: as) := by
      simpa using sanitizePath_map_normal (a :: as)
    simp [unpackEntry, toTarEntry, h]

theorem unpackEntry_toTar_file (fs : FS) (p : List String) (c : List Nat) (hp : p ≠ []) :
    unpackEntry fs (toTarEntry ⟨p, FNode.file c⟩) =
      fsWriteFile (mkdirAll fs p.dropLast) p c := by
  cases p with
  | nil => exact absurd rfl hp
  | cons a as =>
    have h : sanitizePath (TarPathComp.normal a :: as.map TarPathComp.normal) =
        some (a :: as) := by
      simpa using sanitizePath_map_normal (a :: as)
    simp [unpackEntry, toTarEntry, h]

/-- Unpacking, in sorted order, tar entries whose ancestors are closed
over and whose paths are fresh appends exactly those entries. -/
theorem foldl_unpack_sorted :
    ∀ (todo done : List FSEntry),
    ((done ++ todo).map FSEntry.path).Nodup →
    todo.Pairwise (fun a b => pathLe a.path b.path = true) →
    (∀ e ∈ todo, e.path ≠ []) →
    (∀ e ∈ todo, ∀ q ∈ pathChain e.path.dropLast,
      (⟨q, FNode.dir⟩ : FSEntry) ∈ done ∨ (⟨q, FNode.dir⟩ : FSEntry) ∈ todo) →
    (todo.map toTarEntry).foldl unpackEntry done = done ++ todo := by
  intro todo
  induction todo with
  | nil => intro done _ _ _ _; simp
  | cons e rest ih =>
    intro done hnd hsorted hne hclosed
    have hepath : e.path ≠ [] := hne e (List.mem_cons_self e rest)
    -- the path of `e` is not yet present
    have habs : fsHasPath done e.path = false := by
      rw [Bool.eq_false_iff]
      intro hcontra
      rw [fsHasPath_iff] at hcontra
      have hmem2 : e.path ∈ (e :: rest).map FSEntry.path :=
        List.mem_map.mpr ⟨e, List.mem_cons_self e rest, rfl⟩
      rw [List.map_append] at hnd
      exact (List.disjoint_of_nodup_append hnd) hcontra hmem2
    -- every strict ancestor of `e.path` is already present in `done`
    have hpres : ∀ q ∈ pathChain e.path.dropLast, fsHasPath done q = true := by
      intro q hq
      rcases hclosed e (List.mem_cons_self e rest) q hq with h | h
      · rw [fsHasPath_iff]
        exact List.mem_map.mpr ⟨⟨q, FNode.dir⟩, h, rfl⟩
      · rcases mem_pathChain_dropLast_ne hq with ⟨hqe, hqle⟩
        rcases List.mem_cons.mp h with h' | h'
        · exact absurd (congrArg FSEntry.path h') hqe
        · have := List.rel_of_pairwise_cons hsorted h'
          exact absurd (pathLe_antisymm this hqle).symm hqe
    have hstep : unpackEntry done (toTarEntry e) = done ++ [e] := by
      match hme : e with
      | ⟨p, FNode.dir⟩ =>
        rw [unpackEntry_toTar_dir done p (by simpa using hepath)]
        exact mkdirAll_absent done p (by simpa using hepath)
          (by simpa using hpres) (by simpa using habs)
      | ⟨p, FNode.file c⟩ =>
        rw [unpackEntry_toTar_file done p c (by simpa using hepath)]
        rw [mkdirAll_present done p.dropLast ?hdrop]
        · exact fsWriteFile_absent done p c (by simpa using habs)
        case hdrop => simpa using hpres
    simp only [List.map_cons, List.foldl_cons, hstep]
    rw [ih (done ++ [e])]
    · simp
    · simp only [List.append_assoc, List.singleton_append]
      exact hnd
    · exact List.Pairwise.of_cons hsorted
    · exact fun x hx => hne x (List.mem_cons_of_mem e hx)
    · intro x hx q hq
      rcases hclosed x (List.mem_cons_of_mem e hx) q hq with h | h
      · exact Or.inl (List.mem_append_left [e] h)
      · rcases List.mem_cons.mp h with h' | h'
        · exact Or.inl (List.mem_append_right done (h' ▸ List.mem_singleton_self _))
        · exact Or.inr h'

/-! ## Well-formed directory walks and the round-trip argument -/

/-- What a `WalkDir` traversal of a real directory yields: the walked
root is present (with empty relative path) and is a directory, paths
are unique, and every ancestor directory of an entry is itself in the
traversal. -/
structure WalkWF (l : List FSEntry) : Prop where
  root_mem : (⟨[], FNode.dir⟩ : FSEntry) ∈ l
  root_dir : ∀ e ∈ l, e.path = [] → e.node = FNode.dir
  nodup : (l.map FSEntry.path).Nodup
  closed : ∀ e ∈ l, ∀ q ∈ pathChain e.path.dropLast, (⟨q, FNode.dir⟩ : FSEntry) ∈ l

/-- The sorted non-root entries of a traversal: exactly the entries
`create_tar_archive` packs. -/
def nonRootSorted (l : List FSEntry) : List FSEntry :=
  (sortEntries l).filter (fun e => !e.path.isEmpty)

theorem sortEntries_map_path_nodup (l : List FSEntry)
    (h : (l.map FSEntry.path).Nodup) : ((sortEntries l).map FSEntry.path).Nodup :=
  (((sortEntries_perm l).map FSEntry.path).symm).nodup h

theorem nonRootSorted_map_path_nodup (l : List FSEntry)
    (h : (l.map FSEntry.path).Nodup) : ((nonRootSorted l).map FSEntry.path).Nodup :=
  ((List.filter_sublist _).map FSEntry.path).nodup (sortEntries_map_path_nodup l h)

theorem filterMapPack_eq (s : List FSEntry)
    (hroot : ∀ e ∈ s, e.path = [] → e.node = FNode.dir) :
    s.filterMap (fun e => match e.node with
      | FNode.file _ => some (toTarEntry e)
      | FNode.dir => if e.path = [] then none else some (toTarEntry e)) =
    (s.filter (fun e => !e.path.isEmpty)).map toTarEntry := by
  induction s with
  | nil => rfl
  | cons e rest ih =>
    have he := hroot e (List.mem_cons_self e rest)
    have ihrest := ih (fun x hx => hroot x (List.mem_cons_of_mem e hx))
    match hn : e.node with
    | FNode.file c =>
      have hne : e.path ≠ [] := by
        intro hp
        have := he hp
        rw [hn] at this
        exact FNode.noConfusion this
      simp only [List.filterMap_cons, List.filter_cons, hn]
      rw [if_pos (by simpa [List.isEmpty_iff] using hne)]
      simpa [hn] using ihrest
    | FNode.dir =>
      by_cases hp : e.path = []
      · simp only [List.filterMap_cons, List.filter_cons, hn]
        rw [if_pos hp, if_neg (by simpa [List.isEmpty_iff] using hp)]
        exact ihrest
      · simp only [List.filterMap_cons, List.filter_cons, hn]
        rw [if_neg hp, if_pos (by simpa [List.isEmpty_iff] using hp)]
        simpa using ihrest

theorem archiveEntries_eq_map (l : List FSEntry)
    (hroot : ∀ e ∈ l, e.path = [] → e.node = FNode.dir) :
    archiveEntries l = (nonRootSorted l).map toTarEntry :=
  filterMapPack_eq (sortEntries l)
    (fun e he => hroot e ((sortEntries_perm l).subset he))

theorem filter_root_eq (l : List FSEntry) (h : WalkWF l) :
    l.filter (fun e => e.path.isEmpty) = [⟨[], FNode.dir⟩] := by
  have hall : ∀ e ∈ l.filter (fun e => e.path.isEmpty), e = (⟨[], FNode.dir⟩ : FSEntry) := by
    intro e he
    rcases List.mem_filter.mp he with ⟨hel, hp⟩
    have hp' : e.path = [] := by simpa [List.isEmpty_iff] using hp
    have hn := h.root_dir e hel hp'
    cases e
    simp_all
  have hrep := List.eq_replicate_of_mem hall
  have hmem : (⟨[], FNode.dir⟩ : FSEntry) ∈ l.filter (fun e => e.path.isEmpty) :=
    List.mem_filter.mpr ⟨h.root_mem, by simp⟩
  have hle : (l.filter (fun e => e.path.isEmpty)).length ≤ 1 := by
    have hsub : List.Sublist
        ((l.filter (fun e => e.path.isEmpty)).map FSEntry.path) (l.map FSEntry.path) :=
      (List.filter_sublist l).map FSEntry.path
    have hnd := h.nodup.sublist hsub
    rw [hrep] at hnd
    simpa [List.map_replicate, List.nodup_replicate] using hnd
  have hge : 1 ≤ (l.filter (fun e => e.path.isEmpty)).length :=
    List.length_pos.mpr (List.ne_nil_of_mem hmem)
  have hlen : (l.filter (fun e => e.path.isEmpty)).length = 1 := le_antisymm hle hge
  rw [hlen] at hrep
  simpa using hrep

theorem root_cons_nonRootSorted_perm (l : List FSEntry) (h : WalkWF l) :
    ((⟨[], FNode.dir⟩ : FSEntry) :: nonRootSorted l).Perm l := by
  have h1 : (nonRootSorted l).Perm (l.filter (fun e => !e.path.isEmpty)) :=
    (sortEntries_perm l).filter _
  have h2 := List.filter_append_perm (fun e => e.path.isEmpty) l
  rw [filter_root_eq l h] at h2
  exact (h1.cons _).trans h2

/-- Permutations of a duplicate-free traversal absorb the same bytes:
the sort step makes the checksum independent of discovery order. -/
theorem directoryAbsorbed_perm_eq (l₁ l₂ : List FSEntry) (hp : l₁.Perm l₂)
    (hnd : (l₁.map FSEntry.path).Nodup) :
    directoryAbsorbed l₁ = directoryAbsorbed l₂ := by
  have heq : sortEntries l₁ = sortEntries l₂ :=
    eq_of_perm_of_sorted_paths
      ((sortEntries_perm l₁).trans (hp.trans (sortEntries_perm l₂).symm))
      (sortEntries_sorted l₁) (sortEntries_sorted l₂)
      (sortEntries_map_path_nodup l₁ hnd)
  unfold directoryAbsorbed
  rw [heq]

/-- Extracting the packed entries of a well-formed traversal into an
empty destination recreates exactly the sorted non-root entries. -/
theorem unpack_archiveEntries (l : List FSEntry) (h : WalkWF l) :
    (archiveEntries l).foldl unpackEntry [] = nonRootSorted l := by
  rw [archiveEntries_eq_map l h.root_dir]
  have := foldl_unpack_sorted (nonRootSorted l) []
    (by simpa using nonRootSorted_map_path_nodup l h.nodup)
    ((sortEntries_sorted l).sublist (List.filter_sublist _))
    (fun e he => by
      have := (List.mem_filter.mp he).2
      simpa [List.isEmpty_iff] using this)
    (fun e he q hq => by
      right
      have hel : e ∈ l := (sortEntries_perm l).subset (List.mem_filter.mp he).1
      have hql : (⟨q, FNode.dir⟩ : FSEntry) ∈ l := h.closed e hel q hq
      have hqs : (⟨q, FNode.dir⟩ : FSEntry) ∈ sortEntries l :=
        ((sortEntries_perm l).symm).subset hql
      refine List.mem_filter.mpr ⟨hqs, ?_⟩
      rcases pathChain_dropLast_take hq with ⟨i, hi, hq'⟩
      have hepath : e.path ≠ [] := by
        have := (List.mem_filter.mp he).2
        simpa [List.isEmpty_iff] using this
      have hlen : q.length = i + 1 := by
        rw [hq', List.length_take]
        have hpos : 0 < e.path.length := List.length_pos.mpr hepath
        omega
      have : q ≠ [] := by
        intro hcontra
        rw [hcontra] at hlen
        simp at hlen
      simpa [List.isEmpty_iff] using this)
  simpa using this

/-- The recreated destination traversal (destination root plus created
entries) absorbs the same bytes as the original traversal. -/
theorem directoryAbsorbed_roundtrip (l : List FSEntry) (h : WalkWF l) :
    directoryAbsorbed ((⟨[], FNode.dir⟩ : FSEntry) :: nonRootSorted l) =
      directoryAbsorbed l :=
  directoryAbsorbed_perm_eq _ _ (root_cons_nonRootSorted_perm l h)
    (by
      have hperm := (root_cons_nonRootSorted_perm l h).map FSEntry.path
      exact hperm.symm.nodup h.nodup)

/-! ## Helper lemmas: tampering changes the absorbed byte stream -/

theorem utf8Bytes_ne_nil (c : Char) : utf8Bytes c ≠ [] := by
  simp only [utf8Bytes]
  split_ifs <;> simp

theorem strBytes_ne_nil (s : String) (h : s ≠ "") : strBytes s ≠ [] := by
  unfold strBytes
  match hs : s.data with
  | [] => exact absurd (String.ext hs) h
  | c :: cs =>
    rw [List.flatMap_cons]
    exact fun hc => utf8Bytes_ne_nil c (List.append_eq_nil.mp hc).1

theorem pathString_ne_empty (p : List String) (hp : p ≠ [])
    (hcomp : ∀ s ∈ p, s ≠ "") : pathString p ≠ "" := by
  match p with
  | [] => exact absurd rfl hp
  | [c] => exact hcomp c (List.mem_singleton_self c)
  | c :: d :: rest =>
    intro h
    have h' : c ++ "/" ++ pathString (d :: rest) = "" := h
    have hlen := congrArg String.length h'
    rw [String.length_append, String.length_append] at hlen
    have hone : ("/" : String).length = 1 := rfl
    have hzero : ("" : String).length = 0 := rfl
    omega

theorem dirEntryAbsorbed_ne_nil (p : List String) (n : FNode) (hp : p ≠ [])
    (hcomp : ∀ s ∈ p, s ≠ "") : dirEntryAbsorbed ⟨p, n⟩ ≠ [] := by
  have hs := strBytes_ne_nil (pathString p) (pathString_ne_empty p hp hcomp)
  match n with
  | FNode.file c =>
    simp only [dirEntryAbsorbed]
    exact fun hc => hs (List.append_eq_nil.mp hc).1
  | FNode.dir =>
    simp only [dirEntryAbsorbed, if_neg hp]
    exact hs

theorem directoryAbsorbed_length (l : List FSEntry) :
    (directoryAbsorbed l).length = (l.map (fun e => (dirEntryAbsorbed e).length)).sum := by
  unfold directoryAbsorbed
  rw [List.length_flatten, List.map_map]
  exact ((sortEntries_perm l).map (fun e => (dirEntryAbsorbed e).length)).sum_eq

/-- Adding (or, read right to left, removing) an entry with a nonempty,
validly named relative path changes the absorbed byte stream. -/
theorem directoryAbsorbed_append_ne (l : List FSEntry) (p : List String) (n : FNode)
    (hp : p ≠ []) (hcomp : ∀ s ∈ p, s ≠ "") :
    directoryAbsorbed (l ++ [⟨p, n⟩]) ≠ directoryAbsorbed l := by
  intro h
  have hlen := congrArg List.length h
  rw [directoryAbsorbed_length, directoryAbsorbed_length, List.map_append,
    List.sum_append] at hlen
  simp only [List.map_cons, List.map_nil, List.sum_cons, List.sum_nil] at hlen
  have : (dirEntryAbsorbed ⟨p, n⟩).length = 0 := by omega
  exact dirEntryAbsorbed_ne_nil p n hp hcomp (List.eq_nil_of_length_eq_zero this)

/-- In-place mutation of the file at path `p` to content `c'` —
the tree after a tamper that rewrites one file's bytes. -/
def replaceContent (l : List FSEntry) (p : List String) (c' : List Nat) : List FSEntry :=
  l.map (fun e => if e.path = p then ⟨p, FNode.file c'⟩ else e)

theorem replaceContent_path (p : List String) (c' : List Nat) (e : FSEntry) :
    (if e.path = p then (⟨p, FNode.file c'⟩ : FSEntry) else e).path = e.path := by
  by_cases h : e.path = p <;> simp [h]

theorem sortEntries_replaceContent (l : List FSEntry) (p : List String) (c' : List Nat)
    (hnd : (l.map FSEntry.path).Nodup) :
    sortEntries (replaceContent l p c') =
      (sortEntries l).map (fun e => if e.path = p then ⟨p, FNode.file c'⟩ else e) := by
  have hpaths : (replaceContent l p c').map FSEntry.path = l.map FSEntry.path := by
    unfold replaceContent
    rw [List.map_map]
    exact List.map_congr_left (fun e _ => replaceContent_path p c' e)
  apply eq_of_perm_of_sorted_paths
  · exact (sortEntries_perm _).trans
      (((sortEntries_perm l).map _).symm)
  · exact sortEntries_sorted _
  · rw [List.pairwise_map]
    refine (sortEntries_sorted l).imp ?_
    intro a b hab
    rw [replaceContent_path, replaceContent_path]
    exact hab
  · exact sortEntries_map_path_nodup _ (hpaths ▸ hnd)

/-- Mutating the bytes of one file (same length, different content)
changes the absorbed byte stream. -/
theorem byte_mutation_changes_absorbed (l : List FSEntry) (p : List String)
    (c c' : List Nat) (hmem : (⟨p, FNode.file c⟩ : FSEntry) ∈ l)
    (hnd : (l.map FSEntry.path).Nodup) (hlen : c.length = c'.length) (hne : c ≠ c') :
    directoryAbsorbed (replaceContent l p c') ≠ directoryAbsorbed l := by
  have hmemS : (⟨p, FNode.file c⟩ : FSEntry) ∈ sortEntries l :=
    ((sortEntries_perm l).symm).subset hmem
  obtain ⟨A, B, hAB⟩ := List.append_of_mem hmemS
  have hndS := sortEntries_map_path_nodup l hnd
  rw [hAB, List.map_append, List.map_cons] at hndS
  have hA : ∀ a ∈ A, a.path ≠ p := by
    intro a ha hap
    have hdisj := List.disjoint_of_nodup_append hndS
    exact hdisj (List.mem_map.mpr ⟨a, ha, hap⟩) (List.mem_cons_self _ _)
  have hB : ∀ b ∈ B, b.path ≠ p := by
    intro b hb hbp
    have hnd2 := (List.nodup_append.mp hndS).2.1
    rcases List.nodup_cons.mp hnd2 with ⟨hnotin, _⟩
    exact hnotin (hbp ▸ List.mem_map.mpr ⟨b, hb, rfl⟩)
  have hflat := chunksOf_flatten 8192 (by decide) c
  have hflat' := chunksOf_flatten 8192 (by decide) c'
  intro h
  unfold directoryAbsorbed at h
  rw [sortEntries_replaceContent l p c' hnd, hAB, List.map_map] at h
  simp only [List.map_append, List.map_cons, List.flatten_append, List.flatten_cons] at h
  have hgA : A.map (dirEntryAbsorbed ∘
      fun e => if e.path = p then (⟨p, FNode.file c'⟩ : FSEntry) else e) =
      A.map dirEntryAbsorbed :=
    List.map_congr_left (fun a ha => by simp [hA a ha])
  have hgB : B.map (dirEntryAbsorbed ∘
      fun e => if e.path = p then (⟨p, FNode.file c'⟩ : FSEntry) else e) =
      B.map dirEntryAbsorbed :=
    List.map_congr_left (fun b hb => by simp [hB b hb])
  have hgE : (dirEntryAbsorbed ∘
      fun e => if e.path = p then (⟨p, FNode.file c'⟩ : FSEntry) else e)
      ⟨p, FNode.file c⟩ = dirEntryAbsorbed ⟨p, FNode.file c'⟩ := by
    simp
  rw [hgA, hgB, hgE] at h
  have h2 := List.append_cancel_left h
  simp only [dirEntryAbsorbed, hflat, hflat'] at h2
  rw [List.append_assoc, List.append_assoc] at h2
  have h3 := List.append_cancel_left h2
  have h4 := (List.append_inj h3 (by rw [hlen])).1
  exact hne h4.symm

/-! ## Helper lemmas: where extraction can write -/

theorem mem_paths_foldl_mkdirStep :
    ∀ (qs : List (List String)) (fs : FS) (x : List String),
    x ∈ (qs.foldl mkdirStep fs).map FSEntry.path →
    x ∈ fs.map FSEntry.path ∨ x ∈ qs := by
  intro qs
  induction qs with
  | nil => intro fs x hx; exact Or.inl hx
  | cons q rest ih =>
    intro fs x hx
    rcases ih (mkdirStep fs q) x hx with h | h
    · unfold mkdirStep at h
      by_cases hq : fsHasPath fs q
      · rw [if_pos hq] at h
        exact Or.inl h
      · rw [if_neg hq, List.map_append] at h
        rcases List.mem_append.mp h with h' | h'
        · exact Or.inl h'
        · simp only [List.map_cons, List.map_nil, List.mem_singleton] at h'
          exact Or.inr (h' ▸ List.mem_cons_self q rest)
    · exact Or.inr (List.mem_cons_of_mem q h)

theorem mem_paths_mkdirAll (fs : FS) (p : List String) (x : List String)
    (hx : x ∈ (mkdirAll fs p).map FSEntry.path) :
    x ∈ fs.map FSEntry.path ∨ x ∈ pathChain p :=
  mem_paths_foldl_mkdirStep (pathChain p) fs x hx

theorem mem_paths_fsWriteFile (fs : FS) (p : List String) (c : List Nat)
    (x : List String) (hx : x ∈ (fsWriteFile fs p c).map FSEntry.path) :
    x ∈ fs.map FSEntry.path ∨ x = p := by
  unfold fsWriteFile at hx
  by_cases hq : fsHasPath fs p
  · rw [if_pos hq] at hx
    rw [List.map_map] at hx
    have : fs.map (FSEntry.path ∘ fun e => if e.path = p then ⟨p, FNode.file c⟩ else e) =
        fs.map FSEntry.path :=
      List.map_congr_left (fun e _ => replaceContent_path p c e)
    rw [this] at hx
    exact Or.inl hx
  · rw [if_neg hq, List.map_append] at hx
    rcases List.mem_append.mp hx with h' | h'
    · exact Or.inl h'
    · simp only [List.map_cons, List.map_nil, List.mem_singleton] at h'
      exact Or.inr h'

theorem mem_paths_unpackEntry (fs : FS) (e : TarEntry) (x : List String)
    (hx : x ∈ (unpackEntry fs e).map FSEntry.path) :
    x ∈ fs.map FSEntry.path ∨
    ∃ q, sanitizePath e.path = some q ∧ ∃ j, x = q.take (j + 1) := by
  obtain ⟨ep, en⟩ := e
  unfold unpackEntry at hx
  dsimp only at hx
  match hs : sanitizePath ep with
  | none => rw [hs] at hx; exact Or.inl hx
  | some [] => rw [hs] at hx; exact Or.inl hx
  | some (a :: as) =>
    rw [hs] at hx
    cases en with
    | dir =>
      dsimp only at hx
      rcases mem_paths_mkdirAll fs (a :: as) x hx with h | h
      · exact Or.inl h
      · rcases mem_pathChain.mp h with ⟨i, _, hx'⟩
        exact Or.inr ⟨a :: as, rfl, i, hx'⟩
    | file cnt =>
      dsimp only at hx
      rcases mem_paths_fsWriteFile _ (a :: as) cnt x hx with h | h
      · rcases mem_paths_mkdirAll fs (a :: as).dropLast x h with h' | h'
        · exact Or.inl h'
        · rcases pathChain_dropLast_take h' with ⟨i, _, hx'⟩
          exact Or.inr ⟨a :: as, rfl, i, hx'⟩
      · refine Or.inr ⟨a :: as, rfl, as.length, ?_⟩
        rw [h]
        have hl : (a :: as).length = as.length + 1 := by simp
        rw [← hl, List.take_length]

theorem mem_paths_foldl_unpack :
    ∀ (entries : List TarEntry) (fs : FS) (x : List String),
    x ∈ ((entries.foldl unpackEntry fs).map FSEntry.path) →
    x ∈ fs.map FSEntry.path ∨
    ∃ e ∈ entries, ∃ q, sanitizePath e.path = some q ∧ ∃ j, x = q.take (j + 1) := by
  intro entries
  induction entries with
  | nil => intro fs x hx; exact Or.inl hx
  | cons e rest ih =>
    intro fs x hx
    rcases ih (unpackEntry fs e) x hx with h | h
    · rcases mem_paths_unpackEntry fs e x h with h' | h'
      · exact Or.inl h'
      · rcases h' with ⟨q, hq, j, hj⟩
        exact Or.inr ⟨e, List.mem_cons_self e rest, q, hq, j, hj⟩
    · rcases h with ⟨e', he', q, hq, j, hj⟩
      exact Or.inr ⟨e', List.mem_cons_of_mem e he', q, hq, j, hj⟩

/-- Entries whose path sanitisation rejects (a `..` component) are
invisible to extraction: filtering them away changes nothing. -/
theorem foldl_unpack_filter_sanitize :
    ∀ (entries : List TarEntry) (fs : FS),
    (entries.filter (fun e => (sanitizePath e.path).isSome)).foldl unpackEntry fs =
      entries.foldl unpackEntry fs := by
  intro entries
  induction entries with
  | nil => intro fs; rfl
  | cons e rest ih =>
    intro fs
    rw [List.filter_cons]
    by_cases hs : (sanitizePath e.path).isSome
    · rw [if_pos (by simpa using hs)]
      simp only [List.foldl_cons]
      exact ih (unpackEntry fs e)
    · rw [if_neg (by simpa using hs)]
      have hnone : sanitizePath e.path = none := Option.not_isSome_iff_eq_none.mp hs
      have : unpackEntry fs e = fs := by
        unfold unpackEntry
        rw [hnone]
      simp only [List.foldl_cons, this]
      exact ih fs

/-! ## Claim theorems -/

/-- C1: Round-trip identity.  For every well-formed directory traversal,
packing with `create_tar_archive` and extracting the resulting tar into
an empty destination yields a tree whose
`calculate_directory_checksum` (computed over the destination root plus
the created entries) equals the checksum of the original tree, which in
turn equals the checksum `create_tar_archive` returned while packing. -/
theorem C1_roundtrip_identity (l : List FSEntry) (h : WalkWF l) :
    ∃ fs, extract_tar_archive (create_tar_archive l).1 [] = Except.ok fs ∧
      calculate_directory_checksum (⟨[], FNode.dir⟩ :: fs) =
        calculate_directory_checksum l ∧
      calculate_directory_checksum l = (create_tar_archive l).2 := by
  refine ⟨nonRootSorted l, ?_, ?_, ?_⟩
  · show Except.ok ((archiveEntries l).foldl unpackEntry []) = _
    rw [unpack_archiveEntries l h]
  · unfold calculate_directory_checksum
    rw [directoryAbsorbed_roundtrip l h]
  · show calculate_directory_checksum l = sha256Hex (archiveAbsorbed l)
    rw [archiveAbsorbed_eq_directoryAbsorbed]
    rfl

/-- Witness for C1 at the spec's scenario tree: one file `a.txt` with
content `hello` and one empty subdirectory `b`. -/
theorem C1_roundtrip_identity_witness :
    ∃ fs, extract_tar_archive
        (create_tar_archive [⟨[], FNode.dir⟩,
          ⟨["a.txt"], FNode.file [104, 101, 108, 108, 111]⟩, ⟨["b"], FNode.dir⟩]).1 [] =
        Except.ok fs ∧
      calculate_directory_checksum (⟨[], FNode.dir⟩ :: fs) =
        calculate_directory_checksum [⟨[], FNode.dir⟩,
          ⟨["a.txt"], FNode.file [104, 101, 108, 108, 111]⟩, ⟨["b"], FNode.dir⟩] ∧
      calculate_directory_checksum [⟨[], FNode.dir⟩,
          ⟨["a.txt"], FNode.file [104, 101, 108, 108, 111]⟩, ⟨["b"], FNode.dir⟩] =
        (create_tar_archive [⟨[], FNode.dir⟩,
          ⟨["a.txt"], FNode.file [104, 101, 108, 108, 111]⟩, ⟨["b"], FNode.dir⟩]).2 :=
  C1_roundtrip_identity _ ⟨by decide, by decide, by decide, by decide⟩

set_option maxRecDepth 100000 in
/-- C2 counterexample: `validate_layer_archive` succeeds even when the
recomputed packed-stream checksum differs from the manifest's recorded
checksum — the claimed fatal "checksum mismatch" failure does not
exist; the two values are only displayed (check.rs:169-177). -/
theorem C2_checksum_no_comparison_counterexample :
    validate_layer_archive [] []
        "0000000000000000000000000000000000000000000000000000000000000000" =
      Except.ok (calculate_file_checksum [],
        "0000000000000000000000000000000000000000000000000000000000000000", 0) ∧
    calculate_file_checksum [] ≠
      "0000000000000000000000000000000000000000000000000000000000000000" :=
  ⟨rfl, by decide⟩

/-- C2 amended: at check-time `validate_layer_archive` recomputes the
layer archive's checksum from the packed `layer.tar` stream (no
extraction) and displays it alongside the manifest's recorded checksum,
but performs no comparison: it succeeds for every parsed archive,
whether or not the two checksums agree. -/
theorem C2_checksum_displayed_not_compared (layerEntries : List TarEntry)
    (layerTarBytes : List Nat) (recorded : String) :
    validate_layer_archive layerEntries layerTarBytes recorded =
      Except.ok (calculate_file_checksum layerTarBytes, recorded,
        layerEntries.length) := rfl

/-- C3 counterexample: an inner layer stream whose single entry has the
relative path `../evil` is extracted without any error — the entry is
silently skipped (nothing is written), not rejected with a structural
error. -/
theorem C3_path_escape_counterexample :
    extract_tar_archive
        [⟨[TarPathComp.parent, TarPathComp.normal "evil"], FNode.file [42]⟩] [] =
      Except.ok [] := rfl

/-- C3 amended: `extract_tar_archive` never fails on escaping paths and
never writes outside the destination: an entry whose path contains a
parent-directory component is skipped silently (filtering such entries
away changes nothing), root components are stripped, and every path
written under the destination is a nonempty prefix of some entry's
sanitised (relative, normal-component) path. -/
theorem C3_path_escape_neutralised :
    (∀ (entries : List TarEntry) (dest : FS),
      extract_tar_archive entries dest =
        Except.ok (entries.foldl unpackEntry dest)) ∧
    (∀ (entries : List TarEntry) (dest : FS),
      (entries.filter (fun e => (sanitizePath e.path).isSome)).foldl
          unpackEntry dest =
        entries.foldl unpackEntry dest) ∧
    (∀ (entries : List TarEntry) (x : List String),
      x ∈ (entries.foldl unpackEntry []).map FSEntry.path →
      ∃ e ∈ entries, ∃ q, sanitizePath e.path = some q ∧
        ∃ j, x = q.take (j + 1)) :=
  ⟨fun _ _ => rfl, foldl_unpack_filter_sanitize, fun entries x hx => by
    rcases mem_paths_foldl_unpack entries [] x hx with h | h
    · simp at h
    · exact h⟩

/-- Witness for C3's amended claim: an absolute-path entry is written
inside the destination, its root component stripped. -/
theorem C3_path_escape_neutralised_witness :
    ∃ e ∈ [(⟨[TarPathComp.rootd, TarPathComp.normal "etc"], FNode.dir⟩ : TarEntry)],
      ∃ q, sanitizePath e.path = some q ∧ ∃ j, ["etc"] = q.take (j + 1) :=
  C3_path_escape_neutralised.2.2 _ ["etc"] (by decide)

/-- C4: Dual-use checksum equivalence.  The checksum
`create_tar_archive` returns while packing equals
`calculate_directory_checksum` of the same traversal: both sort the
entries by path and absorb, per entry, the relative path string and
then (for files) the content in 8192-byte chunks. -/
theorem C4_dual_use_checksum (l : List FSEntry) :
    (create_tar_archive l).2 = calculate_directory_checksum l := by
  show sha256Hex (archiveAbsorbed l) = _
  rw [archiveAbsorbed_eq_directoryAbsorbed]
  rfl

/-- C5: Checksum determinism and order independence.  Two traversals
with identical sets of entries (and duplicate-free paths, as a real
filesystem guarantees) produce the same checksum regardless of
enumeration order; the model carries no timestamps or inode numbers, so
the digest depends only on the (path, content) pairs, absorbed in
ascending path order as path bytes followed by chunked content. -/
theorem C5_checksum_order_independence (l₁ l₂ : List FSEntry)
    (hmem : ∀ e, e ∈ l₁ ↔ e ∈ l₂)
    (hnd₁ : (l₁.map FSEntry.path).Nodup) (hnd₂ : (l₂.map FSEntry.path).Nodup) :
    calculate_directory_checksum l₁ = calculate_directory_checksum l₂ := by
  have hperm : l₁.Perm l₂ :=
    (List.perm_ext_iff_of_nodup (List.Nodup.of_map _ hnd₁)
      (List.Nodup.of_map _ hnd₂)).mpr hmem
  unfold calculate_directory_checksum
  rw [directoryAbsorbed_perm_eq l₁ l₂ hperm hnd₁]

/-- Witness for C5: the same three entries enumerated in two different
orders yield the same checksum. -/
theorem C5_checksum_order_independence_witness :
    calculate_directory_checksum
        [⟨[], FNode.dir⟩, ⟨["a"], FNode.file [7]⟩, ⟨["b"], FNode.dir⟩] =
      calculate_directory_checksum
        [⟨["b"], FNode.dir⟩, ⟨[], FNode.dir⟩, ⟨["a"], FNode.file [7]⟩] :=
  C5_checksum_order_independence _ _
    (fun e => by constructor <;> (intro h; simp at h; rcases h with h | h | h <;> simp [h]))
    (by decide) (by decide)

set_option maxRecDepth 100000 in
/-- C6 counterexample: for an extracted tree recorded in a manifest,
mutating one byte of one file does change the recomputed directory
checksum relative to the recorded value, but Check does not report a
mismatch: `validate_layer_archive` succeeds regardless of the recorded
checksum, so the claimed "Check … report[s] a ChecksumMismatch" is
false. -/
theorem C6_tamper_detection_counterexample :
    calculate_directory_checksum [⟨[], FNode.dir⟩, ⟨["a"], FNode.file [1]⟩] ≠
      calculate_directory_checksum [⟨[], FNode.dir⟩, ⟨["a"], FNode.file [0]⟩] ∧
    validate_layer_archive [] []
        (calculate_directory_checksum [⟨[], FNode.dir⟩, ⟨["a"], FNode.file [0]⟩]) =
      Except.ok (calculate_file_checksum [],
        calculate_directory_checksum [⟨[], FNode.dir⟩, ⟨["a"], FNode.file [0]⟩], 0) :=
  ⟨by decide, rfl⟩

/-- C6 amended: mutating one byte of one file, or adding or removing
an entry with a nonempty, validly named path, changes the byte stream
the directory checksum absorbs (hence the digest, barring SHA-256
collisions); Import recomputes the checksum over the extracted target
and fails exactly when it differs from the manifest's recorded value;
Check only displays the recomputed and recorded checksums without
comparing them. -/
theorem C6_tamper_changes_stream :
    (∀ (l : List FSEntry) (p : List String) (c c' : List Nat),
      (⟨p, FNode.file c⟩ : FSEntry) ∈ l → (l.map FSEntry.path).Nodup →
      c.length = c'.length → c ≠ c' →
      directoryAbsorbed (replaceContent l p c') ≠ directoryAbsorbed l) ∧
    (∀ (l : List FSEntry) (p : List String) (n : FNode),
      p ≠ [] → (∀ s ∈ p, s ≠ "") →
      directoryAbsorbed (l ++ [⟨p, n⟩]) ≠ directoryAbsorbed l) ∧
    (∀ (backup : Bool) (target : Option FS) (backupDir : Option FS)
        (layer : List TarEntry) (recorded : String),
      (import_backup_extract_verify backup target backupDir layer recorded).result =
          Except.ok () ↔
        calculate_directory_checksum (⟨[], FNode.dir⟩ ::
            (import_backup_extract_verify backup target backupDir layer recorded).target) =
          recorded) ∧
    (∀ (layerEntries : List TarEntry) (layerTarBytes : List Nat) (recorded : String),
      validate_layer_archive layerEntries layerTarBytes recorded =
        Except.ok (calculate_file_checksum layerTarBytes, recorded,
          layerEntries.length)) := by
  refine ⟨byte_mutation_changes_absorbed, directoryAbsorbed_append_ne, ?_, fun _ _ _ => rfl⟩
  intro backup target backupDir layer recorded
  unfold import_backup_extract_verify
  dsimp only
  split
  next hc => exact ⟨fun _ => hc, fun _ => rfl⟩
  next hc => exact ⟨fun h => Except.noConfusion h, fun h => absurd h hc⟩

set_option maxRecDepth 1000000 in
/-- Witness for C6: a one-byte mutation changes the absorbed stream, an
added entry changes the absorbed stream, and a concrete import whose
recomputed checksum matches the recorded one succeeds. -/
theorem C6_tamper_changes_stream_witness :
    directoryAbsorbed (replaceContent [⟨["a"], FNode.file [0]⟩] ["a"] [1]) ≠
      directoryAbsorbed [⟨["a"], FNode.file [0]⟩] ∧
    directoryAbsorbed ([⟨["a"], FNode.file [0]⟩] ++ [⟨["b"], FNode.dir⟩]) ≠
      directoryAbsorbed [⟨["a"], FNode.file [0]⟩] ∧
    ((import_backup_extract_verify false none none []
        (calculate_directory_checksum [⟨[], FNode.dir⟩])).result = Except.ok () ↔
      calculate_directory_checksum (⟨[], FNode.dir⟩ ::
          (import_backup_extract_verify false none none []
            (calculate_directory_checksum [⟨[], FNode.dir⟩])).target) =
        calculate_directory_checksum [⟨[], FNode.dir⟩]) :=
  ⟨C6_tamper_changes_stream.1 [⟨["a"], FNode.file [0]⟩] ["a"] [0] [1]
      (by decide) (by decide) (by decide) (by decide),
   C6_tamper_changes_stream.2.1 [⟨["a"], FNode.file [0]⟩] ["b"] FNode.dir
      (by decide) (by decide),
   C6_tamper_changes_stream.2.2.1 false none none [] _⟩

/-- C7: Architecture gating.  With the architecture check not skipped,
a manifest architecture differing from the current host's makes
`perform_compatibility_checks` return an error (propagated by `main` to
a non-zero exit) whatever the other fields; a differing storage driver
with matching architecture only records a warning, leaves the error
list empty and succeeds (exit zero, absent other errors). -/
theorem C7_architecture_gating :
    (∀ (exportInfo current : EnvInfo) (o : CheckOptions),
      o.skip_arch = false → exportInfo.architecture ≠ current.architecture →
      (perform_compatibility_checks exportInfo current o).2.2 =
        Except.error "Compatibility check failed" ∧
      exitCode (perform_compatibility_checks exportInfo current o).2.2 = 1) ∧
    (∀ (exportInfo current : EnvInfo) (o : CheckOptions),
      o.skip_storage = false → exportInfo.driver ≠ current.driver →
      exportInfo.architecture = current.architecture →
      "Storage driver mismatch" ∈ (perform_compatibility_checks exportInfo current o).1 ∧
      (perform_compatibility_checks exportInfo current o).2.1 = [] ∧
      (perform_compatibility_checks exportInfo current o).2.2 = Except.ok () ∧
      exitCode (perform_compatibility_checks exportInfo current o).2.2 = 0) := by
  constructor
  · intro exportInfo current o h1 h2
    simp [perform_compatibility_checks, exitCode, h1, h2]
  · intro exportInfo current o h1 h2 h3
    simp [perform_compatibility_checks, exitCode, h1, h2, h3]

/-- Witness for C7: an `arm64` manifest on an `amd64` host fails with
exit 1; an `aufs` manifest on an `overlay2` host with matching
architecture warns and exits 0. -/
theorem C7_architecture_gating_witness :
    ((perform_compatibility_checks ⟨"overlay2", "linux", "arm64"⟩
        ⟨"overlay2", "linux", "amd64"⟩ ⟨false, false, false, false⟩).2.2 =
      Except.error "Compatibility check failed" ∧
     exitCode (perform_compatibility_checks ⟨"overlay2", "linux", "arm64"⟩
        ⟨"overlay2", "linux", "amd64"⟩ ⟨false, false, false, false⟩).2.2 = 1) ∧
    ("Storage driver mismatch" ∈ (perform_compatibility_checks
        ⟨"aufs", "linux", "amd64"⟩ ⟨"overlay2", "linux", "amd64"⟩
        ⟨false, false, false, false⟩).1 ∧
     (perform_compatibility_checks ⟨"aufs", "linux", "amd64"⟩
        ⟨"overlay2", "linux", "amd64"⟩ ⟨false, false, false, false⟩).2.1 = [] ∧
     (perform_compatibility_checks ⟨"aufs", "linux", "amd64"⟩
        ⟨"overlay2", "linux", "amd64"⟩ ⟨false, false, false, false⟩).2.2 =
        Except.ok () ∧
     exitCode (perform_compatibility_checks ⟨"aufs", "linux", "amd64"⟩
        ⟨"overlay2", "linux", "amd64"⟩ ⟨false, false, false, false⟩).2.2 = 0) :=
  ⟨C7_architecture_gating.1 _ _ _ (by decide) (by decide),
   C7_architecture_gating.2 _ _ _ (by decide) (by decide) (by decide)⟩

/-- C8: Import replacement policy.  With backup requested and a
non-empty existing target containing a stale `old.txt`, the whole
target becomes the backup sibling (any prior backup is dropped — last
backup wins), so `old.txt` survives unchanged in the backup; the target
is recreated fresh and extraction writes only layer paths, so `old.txt`
is gone from the target (provided the layer itself carries no
`old.txt`).  Without backup, an existing target is deleted outright:
the import proceeds exactly as if the target had not existed. -/
theorem C8_import_replacement_policy :
    (∀ (t : FS) (bk : Option FS) (layer : List TarEntry) (recorded : String)
        (cOld : List Nat),
      (⟨["old.txt"], FNode.file cOld⟩ : FSEntry) ∈ t → t ≠ [] →
      (∀ e ∈ layer, ∀ q, sanitizePath e.path = some q → q.take 1 ≠ ["old.txt"]) →
      (import_backup_extract_verify true (some t) bk layer recorded).backupDir =
          some t ∧
      ["old.txt"] ∉
        (import_backup_extract_verify true (some t) bk layer recorded).target.map
          FSEntry.path) ∧
    (∀ (t : FS) (bk : Option FS) (layer : List TarEntry) (recorded : String),
      import_backup_extract_verify false (some t) bk layer recorded =
        import_backup_extract_verify false none bk layer recorded) := by
  constructor
  · intro t bk layer recorded cOld hmem hne hlayer
    have hemp : t.isEmpty = false := by
      cases t with
      | nil => exact absurd rfl hne
      | cons a b => rfl
    have hcl : importCleared true (some t) bk = (none, some t) := by
      simp [importCleared, hemp]
    constructor
    · show (importCleared true (some t) bk).2 = some t
      rw [hcl]
    · show ["old.txt"] ∉
        (layer.foldl unpackEntry
          ((importCleared true (some t) bk).1.getD [])).map FSEntry.path
      rw [hcl]
      show ["old.txt"] ∉ (layer.foldl unpackEntry []).map FSEntry.path
      intro hx
      rcases mem_paths_foldl_unpack layer [] ["old.txt"] hx with h | h
      · simp at h
      · rcases h with ⟨e, he, q, hq, j, hj⟩
        match q, hj with
        | [], hj => simp at hj
        | a :: as, hj =>
          rw [List.take_succ_cons] at hj
          rcases List.cons.injEq _ _ _ _ ▸ hj with ⟨ha, hrest⟩
          have h1 : (a :: as).take 1 = ["old.txt"] := by
            rw [List.take_succ_cons, List.take_zero, ha]
          exact hlayer e he (a :: as) hq h1
  · intro t bk layer recorded
    rfl

/-- Witness for C8: an import with backup into a target holding a stale
`old.txt`, with a layer carrying one file `a`. -/
theorem C8_import_replacement_policy_witness :
    (import_backup_extract_verify true (some [⟨["old.txt"], FNode.file [9]⟩]) none
        [⟨[TarPathComp.normal "a"], FNode.file [1]⟩] "r").backupDir =
      some [⟨["old.txt"], FNode.file [9]⟩] ∧
    ["old.txt"] ∉
      (import_backup_extract_verify true (some [⟨["old.txt"], FNode.file [9]⟩]) none
        [⟨[TarPathComp.normal "a"], FNode.file [1]⟩] "r").target.map FSEntry.path :=
  C8_import_replacement_policy.1 [⟨["old.txt"], FNode.file [9]⟩] none
    [⟨[TarPathComp.normal "a"], FNode.file [1]⟩] "r" [9]
    (by decide) (by decide)
    (by
      intro e he q hq
      have he' : e = (⟨[TarPathComp.normal "a"], FNode.file [1]⟩ : TarEntry) := by
        simpa using he
      subst he'
      have hq' : q = ["a"] := by
        have : sanitizePath [TarPathComp.normal "a"] = some ["a"] := rfl
        rw [this] at hq
        exact (Option.some.injEq _ _ ▸ hq).symm
      subst hq'
      decide)

/-- C9 counterexample: with compression requested and a caller-supplied
output path `backup.dat` — which does carry an extension — the export
does not use the path as given: `with_extension("tar.gz")` replaces the
`.dat` extension, producing `backup.tar.gz`. -/
theorem C9_output_extension_counterexample :
    exportOutputName "backup.dat" true = "backup.tar.gz" ∧
    "backup.tar.gz" ≠ "backup.dat" := ⟨by decide, by decide⟩

/-- C9 amended: without compression the output path is used exactly as
given; with compression a path already ending in `.gz` is used exactly
as given, and any other path — whether or not it carries an extension —
keeps its directory prefix unchanged and has its final component's
extension replaced by (or, when there is none, extended with)
`tar.gz`: the output is the directory prefix, then the final
component's Rust file stem, then `.tar.gz`. -/
theorem C9_export_output_path :
    (∀ p : String, exportOutputName p false = p) ∧
    (∀ p : String, strEndsWith p ".gz" = true → exportOutputName p true = p) ∧
    (∀ p : String, strEndsWith p ".gz" = false →
      exportOutputName p true =
        (splitLastSlash p).1 ++ rustFileStem (splitLastSlash p).2 ++ ".tar.gz") := by
  refine ⟨fun p => rfl, fun p h => ?_, fun p h => ?_⟩
  · simp [exportOutputName, h]
  · simp only [exportOutputName, h, rustWithExtension, if_true, if_false,
      Bool.false_eq_true, ite_false, ite_true]
    rw [String.append_assoc]
    rfl

/-- Witness for C9's amended claim at `layer.tar.gz` (kept as given) and
at `a.b/c` (the dotted directory component is untouched; the
extensionless final component is extended to `c.tar.gz`). -/
theorem C9_export_output_path_witness :
    exportOutputName "layer.tar.gz" true = "layer.tar.gz" ∧
    (exportOutputName "a.b/c" true =
      (splitLastSlash "a.b/c").1 ++ rustFileStem (splitLastSlash "a.b/c").2 ++
        ".tar.gz" ∧
     exportOutputName "a.b/c" true = "a.b/c.tar.gz") :=
  ⟨C9_export_output_path.2.1 "layer.tar.gz" (by decide),
   C9_export_output_path.2.2 "a.b/c" (by decide), by decide⟩

/-- C10: `is_gzip_file` on an existing file shorter than two bytes
swallows the `read_exact` failure and answers `Ok(false)`; on a file of
at least two bytes it answers `Ok(true)` exactly when the first two
bytes are the gzip magic `0x1f 0x8b`. -/
theorem C10_is_gzip_magic (content : List Nat) :
    (content.length < 2 → is_gzip_file content = Except.ok false) ∧
    (2 ≤ content.length →
      (is_gzip_file content = Except.ok true ↔ content.take 2 = [0x1f, 0x8b])) := by
  constructor
  · intro h
    match content with
    | [] => rfl
    | [a] => rfl
    | a :: b :: rest => simp at h; omega
  · intro h
    match content with
    | [] => simp at h
    | [a] => simp at h
    | a :: b :: rest =>
      simp only [is_gzip_file, List.take_succ_cons, List.take_zero]
      constructor
      · intro hok
        have hb : decide (a = 0x1f ∧ b = 0x8b) = true := by injection hok
        have hd := of_decide_eq_true hb
        simp [hd.1, hd.2]
      · intro ht
        have h1 : a = 0x1f ∧ b = 0x8b := by simpa using ht
        simp [h1.1, h1.2]

/-- Witness for C10: a one-byte file classifies as not gzip; a file
starting with the gzip magic classifies as gzip. -/
theorem C10_is_gzip_magic_witness :
    is_gzip_file [0x1f] = Except.ok false ∧
    (is_gzip_file [0x1f, 0x8b, 7] = Except.ok true ↔
      [0x1f, 0x8b, 7].take 2 = [0x1f, 0x8b]) :=
  ⟨(C10_is_gzip_magic [0x1f]).1 (by decide),
   (C10_is_gzip_magic [0x1f, 0x8b, 7]).2 (by decide)⟩
